import Mathlib

/-!
Verification of the lazynotes note-taking TUI (Rust) against its
natural-language specification.

Rust strings are modelled as `List Char` together with explicit UTF-8 byte
arithmetic: `String::len`, `String::insert`, `String::remove` and
`String::split_off` all work on byte indices and panic when the index is not
a character boundary (or out of range).  Panicking operations are modelled as
`Option`-valued functions returning `none` on the panicking inputs.
-/

namespace LazyNotes

/-- Rust `str::len`: the UTF-8 byte length of a string. -/
def utf8Len (s : List Char) : Nat := (s.map Char.utf8Size).sum

/-- Rust `String::insert(i, c)`: insert `c` at byte offset `i`; `none` models
the panic when `i` is not a character boundary or exceeds the length. -/
def strInsert : List Char → Nat → Char → Option (List Char)
  | l, 0, c => some (c :: l)
  | [], _ + 1, _ => none
  | ch :: rest, i + 1, c =>
    if i + 1 < ch.utf8Size then none
    else (strInsert rest (i + 1 - ch.utf8Size) c).map (ch :: ·)

/-- Rust `String::remove(i)`: remove and return the character starting at byte
offset `i`; `none` models the panic when `i` is out of range or not a
character boundary. -/
def strRemove : List Char → Nat → Option (Char × List Char)
  | [], _ => none
  | ch :: rest, 0 => some (ch, rest)
  | ch :: rest, i + 1 =>
    if i + 1 < ch.utf8Size then none
    else (strRemove rest (i + 1 - ch.utf8Size)).map fun p => (p.1, ch :: p.2)

/-- Rust `String::split_off(i)`: split at byte offset `i`, returning the
retained head and the split-off tail; `none` models the panic. -/
def strSplitOff : List Char → Nat → Option (List Char × List Char)
  | l, 0 => some ([], l)
  | [], _ + 1 => none
  | ch :: rest, i + 1 =>
    if i + 1 < ch.utf8Size then none
    else (strSplitOff rest (i + 1 - ch.utf8Size)).map fun p => (ch :: p.1, p.2)

/-- Rust `Vec::insert(i, x)`: `none` models the panic when `i > len`. -/
def vecInsert : List α → Nat → α → Option (List α)
  | l, 0, x => some (x :: l)
  | [], _ + 1, _ => none
  | a :: l, i + 1, x => (vecInsert l i x).map (a :: ·)

/-- Rust `Vec::remove(i)`: returns the removed element and the remaining
vector; `none` models the panic when `i >= len`. -/
def vecRemove : List α → Nat → Option (α × List α)
  | [], _ => none
  | a :: l, 0 => some (a, l)
  | a :: l, i + 1 => (vecRemove l i).map fun p => (p.1, a :: p.2)

/-- Index lookup (Rust `v[i]` read access, as an `Option`). -/
def nth : List α → Nat → Option α
  | [], _ => none
  | a :: _, 0 => some a
  | _ :: l, i + 1 => nth l i

/-- In-place update at an index (Rust `v[i] = x`; out-of-range is ignored to
mirror `List.set`; every use site is range-checked). -/
def setNth : List α → Nat → α → List α
  | [], _, _ => []
  | _ :: l, 0, x => x :: l
  | a :: l, i + 1, x => a :: setNth l i x

theorem utf8Len_append (a b : List Char) :
    utf8Len (a ++ b) = utf8Len a + utf8Len b := by
  simp [utf8Len]

theorem utf8Size_pos (c : Char) : 0 < c.utf8Size := by
  simp [Char.utf8Size]
  split <;> simp_all
  split <;> simp_all
  split <;> simp_all

theorem strInsert_spec : ∀ (l : List Char) (i : Nat) (c : Char) (l' : List Char),
    strInsert l i c = some l' →
    ∃ a b, l = a ++ b ∧ l' = a ++ c :: b ∧ utf8Len a = i
  | l, 0, c, l' => by
    intro h
    simp only [strInsert, Option.some.injEq] at h
    exact ⟨[], l, by simp [← h, utf8Len]⟩
  | [], i + 1, c, l' => by simp [strInsert]
  | ch :: rest, i + 1, c, l' => by
    intro h
    simp only [strInsert] at h
    split at h
    · simp at h
    · rename_i hge
      rw [Option.map_eq_some'] at h
      obtain ⟨t, ht, rfl⟩ := h
      obtain ⟨a, b, rfl, rfl, hlen⟩ := strInsert_spec rest _ c t ht
      refine ⟨ch :: a, b, by simp, by simp, ?_⟩
      simp only [utf8Len, List.map_cons, List.sum_cons] at hlen ⊢
      omega

theorem strRemove_spec : ∀ (l : List Char) (i : Nat) (c : Char) (l' : List Char),
    strRemove l i = some (c, l') →
    ∃ a b, l = a ++ c :: b ∧ l' = a ++ b ∧ utf8Len a = i
  | [], i, c, l' => by simp [strRemove]
  | ch :: rest, 0, c, l' => by
    intro h
    simp only [strRemove, Option.some.injEq, Prod.mk.injEq] at h
    exact ⟨[], rest, by simp [← h.1, ← h.2, utf8Len]⟩
  | ch :: rest, i + 1, c, l' => by
    intro h
    simp only [strRemove] at h
    split at h
    · simp at h
    · rename_i hge
      rw [Option.map_eq_some'] at h
      obtain ⟨⟨tc, tl⟩, ht, hr⟩ := h
      obtain ⟨a, b, rfl, rfl, hlen⟩ := strRemove_spec rest _ tc tl ht
      simp only [Prod.mk.injEq] at hr
      obtain ⟨rfl, rfl⟩ := hr
      refine ⟨ch :: a, b, by simp, by simp, ?_⟩
      simp only [utf8Len, List.map_cons, List.sum_cons] at hlen ⊢
      omega

theorem strSplitOff_spec : ∀ (l : List Char) (i : Nat) (x y : List Char),
    strSplitOff l i = some (x, y) →
    l = x ++ y ∧ utf8Len x = i
  | l, 0, x, y => by
    intro h
    simp only [strSplitOff, Option.some.injEq, Prod.mk.injEq] at h
    obtain ⟨h1, h2⟩ := h
    subst h2
    simp [← h1, utf8Len]
  | [], i + 1, x, y => by simp [strSplitOff]
  | ch :: rest, i + 1, x, y => by
    intro h
    simp only [strSplitOff] at h
    split at h
    · simp at h
    · rename_i hge
      rw [Option.map_eq_some'] at h
      obtain ⟨⟨ta, tb⟩, ht, hr⟩ := h
      obtain ⟨hl, hlen⟩ := strSplitOff_spec rest _ ta tb ht
      simp only [Prod.mk.injEq] at hr
      obtain ⟨rfl, rfl⟩ := hr
      refine ⟨by simp [hl], ?_⟩
      simp only [utf8Len, List.map_cons, List.sum_cons] at hlen ⊢
      omega

theorem vecInsert_spec : ∀ (l : List α) (i : Nat) (x : α) (l' : List α),
    vecInsert l i x = some l' →
    ∃ a b, l = a ++ b ∧ a.length = i ∧ l' = a ++ x :: b
  | l, 0, x, l' => by
    intro h
    simp only [vecInsert, Option.some.injEq] at h
    exact ⟨[], l, by simp [← h]⟩
  | [], i + 1, x, l' => by simp [vecInsert]
  | a :: l, i + 1, x, l' => by
    intro h
    simp only [vecInsert] at h
    rw [Option.map_eq_some'] at h
    obtain ⟨t, ht, rfl⟩ := h
    obtain ⟨p, q, rfl, hlen, rfl⟩ := vecInsert_spec l i x t ht
    exact ⟨a :: p, q, by simp, by simp [hlen], by simp⟩

theorem vecRemove_spec : ∀ (l : List α) (i : Nat) (x : α) (l' : List α),
    vecRemove l i = some (x, l') →
    ∃ a b, l = a ++ x :: b ∧ a.length = i ∧ l' = a ++ b
  | [], i, x, l' => by simp [vecRemove]
  | a :: l, 0, x, l' => by
    intro h
    simp only [vecRemove, Option.some.injEq, Prod.mk.injEq] at h
    exact ⟨[], l, by simp [← h.1, ← h.2]⟩
  | a :: l, i + 1, x, l' => by
    intro h
    simp only [vecRemove] at h
    rw [Option.map_eq_some'] at h
    obtain ⟨⟨tc, tl⟩, ht, hr⟩ := h
    obtain ⟨p, q, rfl, hlen, rfl⟩ := vecRemove_spec l i tc tl ht
    simp only [Prod.mk.injEq] at hr
    obtain ⟨rfl, rfl⟩ := hr
    exact ⟨a :: p, q, by simp, by simp [hlen], by simp⟩

theorem vecInsert_of_decomp (a b : List α) (x : α) :
    vecInsert (a ++ b) a.length x = some (a ++ x :: b) := by
  induction a with
  | nil => simp [vecInsert]
  | cons hd tl ih => simp [vecInsert, ih]

theorem vecRemove_of_decomp (a b : List α) (x : α) :
    vecRemove (a ++ x :: b) a.length = some (x, a ++ b) := by
  induction a with
  | nil => simp [vecRemove]
  | cons hd tl ih => simp [vecRemove, ih]

theorem setNth_of_decomp (a b : List α) (x v : α) :
    setNth (a ++ x :: b) a.length v = a ++ v :: b := by
  induction a with
  | nil => simp [setNth]
  | cons hd tl ih => simp [setNth, ih]

theorem nth_of_decomp (a b : List α) (x : α) :
    nth (a ++ x :: b) a.length = some x := by
  induction a with
  | nil => simp [nth]
  | cons hd tl ih => simpa [nth] using ih

theorem nth_some_decomp : ∀ (l : List α) (i : Nat) (x : α),
    nth l i = some x → ∃ a b, l = a ++ x :: b ∧ a.length = i
  | [], i, x => by simp [nth]
  | a :: l, 0, x => by
    intro h
    simp only [nth, Option.some.injEq] at h
    exact ⟨[], l, by simp [h]⟩
  | a :: l, i + 1, x => by
    intro h
    simp only [nth] at h
    obtain ⟨p, q, rfl, hlen⟩ := nth_some_decomp l i x h
    exact ⟨a :: p, q, by simp, by simp [hlen]⟩

theorem setNth_length : ∀ (l : List α) (i : Nat) (x : α),
    (setNth l i x).length = l.length
  | [], _, _ => rfl
  | _ :: l, 0, _ => by simp [setNth]
  | a :: l, i + 1, x => by simp [setNth, setNth_length l i x]

theorem nth_lt_length : ∀ (l : List α) (i : Nat), i < l.length → ∃ x, nth l i = some x
  | [], i => by simp
  | a :: l, 0 => fun _ => ⟨a, rfl⟩
  | a :: l, i + 1 => by
    intro h
    simp only [List.length_cons, Nat.add_lt_add_iff_right] at h
    simpa [nth] using nth_lt_length l i h

theorem nth_append_left : ∀ (a b : List α) (i : Nat), i < a.length →
    nth (a ++ b) i = nth a i
  | [], b, i => by simp
  | x :: a, b, 0 => by simp [nth]
  | x :: a, b, i + 1 => by
    intro h
    simp only [List.length_cons, Nat.add_lt_add_iff_right] at h
    simpa [nth] using nth_append_left a b i h

/-! ## The content edit buffer (`App::handle_content_key`, src/app.rs)

`CState` carries the fields of `App` touched by the content surface:
`lines`, `cursor_row`, `cursor_col`, `scroll_y`, `dirty`.  `cursor_col` is a
byte offset, exactly as in the source. -/

structure CState where
  lines : List (List Char)
  row : Nat
  col : Nat
  scroll : Nat
  dirty : Bool
deriving DecidableEq, Repr

/-- The content-surface key events dispatched by `handle_content_key`. -/
inductive CKey where
  | left | right | up | down | home | endKey | backspace | delete | enter
  | char (c : Char)
deriving DecidableEq, Repr

/-- `App::ensure_cursor_visible` (src/app.rs): scroll window of 20 rows. -/
def ensureCursorVisible (row scroll : Nat) : Nat :=
  let window := 20
  if row < scroll then row
  else if row ≥ scroll + window then row + 1 - window
  else scroll

/-- One step of `App::handle_content_key`.  `none` models a Rust panic
(out-of-range index or a byte offset inside a multi-byte character). -/
def contentStep (s : CState) (k : CKey) : Option CState :=
  let fin (t : CState) : Option CState :=
    some { t with scroll := ensureCursorVisible t.row t.scroll }
  match k with
  | .left =>
      if 0 < s.col then fin { s with col := s.col - 1 }
      else if 0 < s.row then do
        let ln ← nth s.lines (s.row - 1)
        fin { s with row := s.row - 1, col := utf8Len ln }
      else fin s
  | .right => do
      let ln ← nth s.lines s.row
      if s.col < utf8Len ln then fin { s with col := s.col + 1 }
      else if s.row + 1 < s.lines.length then fin { s with row := s.row + 1, col := 0 }
      else fin s
  | .up =>
      if 0 < s.row then do
        let ln ← nth s.lines (s.row - 1)
        fin { s with row := s.row - 1, col := min s.col (utf8Len ln) }
      else fin s
  | .down =>
      if s.row + 1 < s.lines.length then do
        let ln ← nth s.lines (s.row + 1)
        fin { s with row := s.row + 1, col := min s.col (utf8Len ln) }
      else fin s
  | .home => fin { s with col := 0 }
  | .endKey => do
      let ln ← nth s.lines s.row
      fin { s with col := utf8Len ln }
  | .backspace =>
      if 0 < s.col then do
        let ln ← nth s.lines s.row
        let p ← strRemove ln (s.col - 1)
        fin { s with lines := setNth s.lines s.row p.2, col := s.col - 1, dirty := true }
      else if 0 < s.row then do
        let prev ← nth s.lines (s.row - 1)
        let p ← vecRemove s.lines s.row
        fin { s with lines := setNth p.2 (s.row - 1) (prev ++ p.1),
                     row := s.row - 1, col := utf8Len prev, dirty := true }
      else fin { s with dirty := true }
  | .delete => do
      let ln ← nth s.lines s.row
      if s.col < utf8Len ln then do
        let p ← strRemove ln s.col
        fin { s with lines := setNth s.lines s.row p.2, dirty := true }
      else if s.row + 1 < s.lines.length then do
        let p ← vecRemove s.lines (s.row + 1)
        fin { s with lines := setNth p.2 s.row (ln ++ p.1), dirty := true }
      else fin { s with dirty := true }
  | .enter => do
      let ln ← nth s.lines s.row
      let p ← strSplitOff ln s.col
      let lines2 ← vecInsert (setNth s.lines s.row p.1) (s.row + 1) p.2
      fin { s with lines := lines2, row := s.row + 1, col := 0, dirty := true }
  | .char c => do
      let ln ← nth s.lines s.row
      let ln' ← strInsert ln s.col c
      fin { s with lines := setNth s.lines s.row ln', col := s.col + 1, dirty := true }

/-- Run a sequence of content key events; `none` as soon as one step panics. -/
def contentRun (s : CState) : List CKey → Option CState
  | [] => some s
  | k :: ks =>
    match contentStep s k with
    | none => none
    | some t => contentRun t ks

/-- The LineBuffer cursor invariant of the spec, with `col` read as the byte
offset the source actually stores. -/
def CInv (s : CState) : Prop :=
  s.lines ≠ [] ∧ s.row < s.lines.length ∧
    s.col ≤ utf8Len ((nth s.lines s.row).getD [])

instance (s : CState) : Decidable (CInv s) := by
  unfold CInv
  infer_instance

theorem contentStep_inv {s t : CState} {k : CKey}
    (hs : CInv s) (h : contentStep s k = some t) : CInv t := by
  obtain ⟨hne, hrow, hcol⟩ := hs
  cases k with
  | left =>
    simp only [contentStep] at h
    split at h
    · simp only [Option.some.injEq] at h
      subst h
      refine ⟨hne, by simpa using hrow, ?_⟩
      simpa using Nat.le_trans (Nat.sub_le _ _) hcol
    · split at h
      · rename_i hc hr
        cases hget : nth s.lines (s.row - 1) with
        | none =>
          obtain ⟨x, hx⟩ := nth_lt_length s.lines (s.row - 1) (by omega)
          simp [hget] at hx
        | some ln =>
          simp only [hget, Option.bind_eq_bind, Option.some_bind, Option.some.injEq] at h
          subst h
          exact ⟨hne, by simpa using Nat.lt_of_le_of_lt (Nat.sub_le _ _) hrow,
            by simp [hget]⟩
      · simp only [Option.some.injEq] at h
        subst h
        exact ⟨hne, hrow, hcol⟩
  | right =>
    simp only [contentStep, Option.bind_eq_bind] at h
    cases hget : nth s.lines s.row with
    | none => simp [hget] at h
    | some ln =>
      simp only [hget, Option.some_bind] at h
      split at h
      · simp only [Option.some.injEq] at h
        subst h
        refine ⟨hne, by simpa using hrow, ?_⟩
        rename_i hlt
        simpa [hget] using hlt
      · split at h
        · rename_i hr
          simp only [Option.some.injEq] at h
          subst h
          exact ⟨hne, by simpa using hr, by simp⟩
        · simp only [Option.some.injEq] at h
          subst h
          exact ⟨hne, hrow, hcol⟩
  | up =>
    simp only [contentStep] at h
    split at h
    · rename_i hr
      cases hget : nth s.lines (s.row - 1) with
      | none =>
        obtain ⟨x, hx⟩ := nth_lt_length s.lines (s.row - 1) (by omega)
        simp [hget] at hx
      | some ln =>
        simp only [hget, Option.bind_eq_bind, Option.some_bind, Option.some.injEq] at h
        subst h
        exact ⟨hne, by simpa using Nat.lt_of_le_of_lt (Nat.sub_le _ _) hrow,
          by simp [hget, Nat.min_le_right]⟩
    · simp only [Option.some.injEq] at h
      subst h
      exact ⟨hne, hrow, hcol⟩
  | down =>
    simp only [contentStep] at h
    split at h
    · rename_i hr
      cases hget : nth s.lines (s.row + 1) with
      | none =>
        obtain ⟨x, hx⟩ := nth_lt_length s.lines (s.row + 1) hr
        simp [hget] at hx
      | some ln =>
        simp only [hget, Option.bind_eq_bind, Option.some_bind, Option.some.injEq] at h
        subst h
        exact ⟨hne, by simpa using hr, by simp [hget, Nat.min_le_right]⟩
    · simp only [Option.some.injEq] at h
      subst h
      exact ⟨hne, hrow, hcol⟩
  | home =>
    simp only [contentStep, Option.some.injEq] at h
    subst h
    exact ⟨hne, hrow, by simp⟩
  | endKey =>
    simp only [contentStep, Option.bind_eq_bind] at h
    cases hget : nth s.lines s.row with
    | none => simp [hget] at h
    | some ln =>
      simp only [hget, Option.some_bind, Option.some.injEq] at h
      subst h
      exact ⟨hne, hrow, by simp [hget]⟩
  | backspace =>
    simp only [contentStep] at h
    split at h
    · rename_i hc
      cases hget : nth s.lines s.row with
      | none => simp [hget] at h
      | some ln =>
        simp only [hget, Option.bind_eq_bind, Option.some_bind] at h
        cases hrm : strRemove ln (s.col - 1) with
        | none => simp [hrm] at h
        | some p =>
          simp only [hrm, Option.some_bind, Option.some.injEq] at h
          subst h
          obtain ⟨a, b, hab, hl', hlena⟩ := strRemove_spec ln _ p.1 p.2 (by simpa using hrm)
          obtain ⟨u, v, huv, hulen⟩ := nth_some_decomp s.lines s.row ln hget
          refine ⟨?_, by simpa [setNth_length] using hrow, ?_⟩
          · dsimp only
            rw [huv, ← hulen, setNth_of_decomp]
            simp
          · dsimp only
            rw [huv, ← hulen, setNth_of_decomp, nth_of_decomp]
            simp only [Option.getD_some]
            rw [hl', utf8Len_append]
            omega
    · split at h
      · rename_i hc hr
        cases hget : nth s.lines (s.row - 1) with
        | none =>
          obtain ⟨x, hx⟩ := nth_lt_length s.lines (s.row - 1) (by omega)
          simp [hget] at hx
        | some prev =>
          simp only [hget, Option.bind_eq_bind, Option.some_bind] at h
          cases hrm : vecRemove s.lines s.row with
          | none => simp [hrm] at h
          | some p =>
            simp only [hrm, Option.some_bind, Option.some.injEq] at h
            subst h
            obtain ⟨a, b, hab, halen, hrest⟩ := vecRemove_spec s.lines _ p.1 p.2 (by simpa using hrm)
            rcases List.eq_nil_or_concat a with rfl | ⟨a0, prev', ha0⟩
            · exfalso
              simp at halen
              omega
            · rw [List.concat_eq_append] at ha0
              have ha0len : a0.length = s.row - 1 := by
                rw [ha0] at halen
                simp at halen
                omega
              have hprev : prev = prev' := by
                have h1 : nth s.lines (s.row - 1) = some prev' := by
                  rw [hab, ha0, ← ha0len]
                  have hassoc : (a0 ++ [prev']) ++ p.1 :: b = a0 ++ prev' :: (p.1 :: b) := by
                    simp
                  rw [hassoc, nth_of_decomp]
                rw [h1] at hget
                exact (Option.some.inj hget).symm
              subst hprev
              have hrest2 : p.2 = a0 ++ prev :: b := by
                rw [hrest, ha0]
                simp
              have hplen : p.2.length + 1 = s.lines.length := by
                rw [hrest2, hab, ha0]
                simp
                omega
              refine ⟨?_, ?_, ?_⟩
              · dsimp only
                rw [hrest2, ← ha0len, setNth_of_decomp]
                simp
              · dsimp only
                rw [setNth_length]
                omega
              · dsimp only
                rw [hrest2, ← ha0len, setNth_of_decomp, nth_of_decomp]
                simp [utf8Len_append]
      · simp only [Option.some.injEq] at h
        subst h
        exact ⟨hne, hrow, hcol⟩
  | delete =>
    simp only [contentStep, Option.bind_eq_bind] at h
    cases hget : nth s.lines s.row with
    | none => simp [hget] at h
    | some ln =>
      simp only [hget, Option.some_bind] at h
      split at h
      · rename_i hlt
        cases hrm : strRemove ln s.col with
        | none => simp [hrm] at h
        | some p =>
          simp only [hrm, Option.some_bind, Option.some.injEq] at h
          subst h
          obtain ⟨a, b, hab, hl', hlena⟩ := strRemove_spec ln _ p.1 p.2 (by simpa using hrm)
          obtain ⟨u, v, huv, hulen⟩ := nth_some_decomp s.lines s.row ln hget
          simp only [hget, Option.getD_some] at hcol
          refine ⟨?_, by simpa [setNth_length] using hrow, ?_⟩
          · dsimp only
            rw [huv, ← hulen, setNth_of_decomp]
            simp
          · dsimp only
            rw [huv, ← hulen, setNth_of_decomp, nth_of_decomp]
            simp only [Option.getD_some]
            rw [hl', utf8Len_append]
            have hcola : s.col ≤ utf8Len a := by omega
            omega
      · split at h
        · rename_i hge hr
          cases hrm : vecRemove s.lines (s.row + 1) with
          | none => simp [hrm] at h
          | some p =>
            simp only [hrm, Option.some_bind, Option.some.injEq] at h
            subst h
            obtain ⟨a, b, hab, halen, hrest⟩ := vecRemove_spec s.lines _ p.1 p.2 (by simpa using hrm)
            rcases List.eq_nil_or_concat a with rfl | ⟨a0, ln', ha0⟩
            · exfalso
              simp at halen
            · rw [List.concat_eq_append] at ha0
              have ha0len : a0.length = s.row := by
                rw [ha0] at halen
                simp at halen
                omega
              have hln : ln = ln' := by
                have h1 : nth s.lines s.row = some ln' := by
                  rw [hab, ha0, ← ha0len]
                  have hassoc : (a0 ++ [ln']) ++ p.1 :: b = a0 ++ ln' :: (p.1 :: b) := by
                    simp
                  rw [hassoc, nth_of_decomp]
                rw [h1] at hget
                exact (Option.some.inj hget).symm
              subst hln
              have hrest2 : p.2 = a0 ++ ln :: b := by
                rw [hrest, ha0]
                simp
              have hplen : p.2.length + 1 = s.lines.length := by
                rw [hrest2, hab, ha0]
                simp
                omega
              simp only [hget, Option.getD_some] at hcol
              refine ⟨?_, ?_, ?_⟩
              · dsimp only
                rw [hrest2, ← ha0len, setNth_of_decomp]
                simp
              · dsimp only
                rw [setNth_length]
                omega
              · dsimp only
                rw [hrest2, ← ha0len, setNth_of_decomp, nth_of_decomp]
                simp only [Option.getD_some]
                rw [utf8Len_append]
                omega
        · simp only [Option.some.injEq] at h
          subst h
          exact ⟨hne, hrow, hcol⟩
  | enter =>
    simp only [contentStep, Option.bind_eq_bind] at h
    cases hget : nth s.lines s.row with
    | none => simp [hget] at h
    | some ln =>
      simp only [hget, Option.some_bind] at h
      cases hsp : strSplitOff ln s.col with
      | none => simp [hsp] at h
      | some p =>
        simp only [hsp, Option.some_bind] at h
        cases hvi : vecInsert (setNth s.lines s.row p.1) (s.row + 1) p.2 with
        | none => simp [hvi] at h
        | some lines2 =>
          simp only [hvi, Option.some_bind, Option.some.injEq] at h
          subst h
          obtain ⟨a, b, hab, halen, hl2⟩ := vecInsert_spec _ _ _ _ hvi
          have hsetlen : (setNth s.lines s.row p.1).length = s.lines.length :=
            setNth_length _ _ _
          have hablen : a.length + b.length = s.lines.length := by
            have hcg := congrArg List.length hab
            rw [hsetlen] at hcg
            simp at hcg
            omega
          have hlen2 : lines2.length = s.lines.length + 1 := by
            rw [hl2]
            simp
            omega
          refine ⟨?_, ?_, by simp⟩
          · dsimp only
            rw [hl2]
            rcases a with _ | ⟨x, a⟩ <;> simp
          · dsimp only
            omega
  | char c =>
    simp only [contentStep, Option.bind_eq_bind] at h
    cases hget : nth s.lines s.row with
    | none => simp [hget] at h
    | some ln =>
      simp only [hget, Option.some_bind] at h
      cases hins : strInsert ln s.col c with
      | none => simp [hins] at h
      | some ln' =>
        simp only [hins, Option.some_bind, Option.some.injEq] at h
        subst h
        obtain ⟨a, b, hab, hl', hlena⟩ := strInsert_spec ln _ c ln' hins
        obtain ⟨u, v, huv, hulen⟩ := nth_some_decomp s.lines s.row ln hget
        simp only [hget, Option.getD_some] at hcol
        refine ⟨?_, by simpa [setNth_length] using hrow, ?_⟩
        · dsimp only
          rw [huv, ← hulen, setNth_of_decomp]
          simp
        · dsimp only
          rw [huv, ← hulen, setNth_of_decomp, nth_of_decomp]
          simp only [Option.getD_some]
          rw [hl', utf8Len_append]
          have hsz := utf8Size_pos c
          have hcola : s.col ≤ utf8Len a + utf8Len b := by
            rw [hab, utf8Len_append] at hcol
            omega
          simp only [utf8Len, List.map_cons, List.sum_cons]
          simp only [utf8Len] at hlena
          omega

theorem contentRun_inv {s t : CState} (ks : List CKey)
    (hs : CInv s) (h : contentRun s ks = some t) : CInv t := by
  induction ks generalizing s with
  | nil =>
    simp only [contentRun, Option.some.injEq] at h
    subst h
    exact hs
  | cons k ks ih =>
    simp only [contentRun] at h
    cases hstep : contentStep s k with
    | none => simp [hstep] at h
    | some u =>
      simp only [hstep] at h
      exact ih (contentStep_inv hs hstep) h

theorem backspace_merge (u v : List (List Char)) (pre post : List Char)
    (r scroll : Nat) (d : Bool) (t : CState) (hu : u.length = r)
    (h : contentStep ⟨u ++ pre :: post :: v, r + 1, 0, scroll, d⟩ CKey.backspace = some t) :
    t.lines = u ++ (pre ++ post) :: v ∧ t.row = r ∧ t.col = utf8Len pre := by
  have hnth1 : nth (u ++ pre :: post :: v) (r + 1 - 1) = some pre := by
    simp only [Nat.add_sub_cancel, ← hu]
    exact nth_of_decomp u (post :: v) pre
  have hvr : vecRemove (u ++ pre :: post :: v) (r + 1) = some (post, u ++ pre :: v) := by
    have hd := vecRemove_of_decomp (u ++ [pre]) v post
    simpa [hu] using hd
  have hset : setNth (u ++ pre :: v) (r + 1 - 1) (pre ++ post) = u ++ (pre ++ post) :: v := by
    simp only [Nat.add_sub_cancel, ← hu]
    exact setNth_of_decomp u v pre (pre ++ post)
  simp only [contentStep] at h
  rw [if_neg (by simp)] at h
  rw [if_pos (by omega)] at h
  simp only [hnth1, Option.bind_eq_bind, Option.some_bind, hvr, hset,
    Option.some.injEq] at h
  subst h
  simp

/-- C9: performing split_line (Enter) at cursor (r, c) immediately followed by
backspace restores the original line sequence exactly and returns the cursor
to (r, c). -/
theorem split_backspace_roundtrip (s s1 s2 : CState)
    (hs : CInv s)
    (h1 : contentStep s CKey.enter = some s1)
    (h2 : contentStep s1 CKey.backspace = some s2) :
    s2.lines = s.lines ∧ s2.row = s.row ∧ s2.col = s.col := by
  simp only [contentStep, Option.bind_eq_bind] at h1
  cases hget : nth s.lines s.row with
  | none => simp [hget] at h1
  | some ln =>
    simp only [hget, Option.some_bind] at h1
    cases hsp : strSplitOff ln s.col with
    | none => simp [hsp] at h1
    | some p =>
      simp only [hsp, Option.some_bind] at h1
      obtain ⟨hln, hcolp⟩ := strSplitOff_spec ln s.col p.1 p.2 (by simpa using hsp)
      obtain ⟨u, v, huv, hulen⟩ := nth_some_decomp s.lines s.row ln hget
      have hset : setNth s.lines s.row p.1 = u ++ p.1 :: v := by
        rw [huv, ← hulen]
        exact setNth_of_decomp u v ln p.1
      have hvi : vecInsert (setNth s.lines s.row p.1) (s.row + 1) p.2
          = some (u ++ p.1 :: p.2 :: v) := by
        rw [hset]
        have hd := vecInsert_of_decomp (u ++ [p.1]) v p.2
        simpa [hulen] using hd
      rw [hvi] at h1
      simp only [Option.some_bind, Option.some.injEq] at h1
      subst h1
      obtain ⟨hl2, hr2, hc2⟩ := backspace_merge u v p.1 p.2 s.row _ true s2 hulen h2
      refine ⟨?_, hr2, ?_⟩
      · rw [hl2, ← hln, ← huv]
      · rw [hc2, hcolp]

/-- C9 witness: a concrete Enter-then-Backspace round trip on the line "ab"
with the cursor at (0, 1). -/
theorem split_backspace_roundtrip_witness :
    CInv ⟨[['a', 'b']], 0, 1, 0, false⟩ ∧
    contentStep ⟨[['a', 'b']], 0, 1, 0, false⟩ CKey.enter
      = some ⟨[['a'], ['b']], 1, 0, 0, true⟩ ∧
    contentStep ⟨[['a'], ['b']], 1, 0, 0, true⟩ CKey.backspace
      = some ⟨[['a', 'b']], 0, 1, 0, true⟩ ∧
    ((⟨[['a', 'b']], 0, 1, 0, true⟩ : CState).lines
        = (⟨[['a', 'b']], 0, 1, 0, false⟩ : CState).lines ∧
      (⟨[['a', 'b']], 0, 1, 0, true⟩ : CState).row
        = (⟨[['a', 'b']], 0, 1, 0, false⟩ : CState).row ∧
      (⟨[['a', 'b']], 0, 1, 0, true⟩ : CState).col
        = (⟨[['a', 'b']], 0, 1, 0, false⟩ : CState).col) :=
  ⟨by decide, by decide, by decide,
    split_backspace_roundtrip ⟨[['a', 'b']], 0, 1, 0, false⟩
      ⟨[['a'], ['b']], 1, 0, 0, true⟩ ⟨[['a', 'b']], 0, 1, 0, true⟩
      (by decide) (by decide) (by decide)⟩

/-- C4: starting from any buffer state satisfying the cursor invariant, every
finite sequence of content-surface key events that completes (without a
panic, see C2) yields a state with cursor_row < lines.length,
cursor_col <= byte length of the current line, and a non-empty line list. -/
theorem content_events_preserve_bounds (s t : CState) (ks : List CKey)
    (hs : CInv s) (h : contentRun s ks = some t) :
    t.lines ≠ [] ∧ t.row < t.lines.length ∧
      t.col ≤ utf8Len ((nth t.lines t.row).getD []) :=
  contentRun_inv ks hs h

/-- C4 witness: a concrete event sequence (insert, Enter, Up, End, Delete)
run from a one-line buffer. -/
theorem content_events_preserve_bounds_witness :
    CInv ⟨[['a']], 0, 0, 0, false⟩ ∧
    ((⟨[['b', 'a']], 0, 1, 0, true⟩ : CState).lines ≠ [] ∧
      (⟨[['b', 'a']], 0, 1, 0, true⟩ : CState).row
        < (⟨[['b', 'a']], 0, 1, 0, true⟩ : CState).lines.length ∧
      (⟨[['b', 'a']], 0, 1, 0, true⟩ : CState).col
        ≤ utf8Len ((nth (⟨[['b', 'a']], 0, 1, 0, true⟩ : CState).lines
            (⟨[['b', 'a']], 0, 1, 0, true⟩ : CState).row).getD [])) :=
  ⟨by decide,
    content_events_preserve_bounds ⟨[['a']], 0, 0, 0, false⟩
      ⟨[['b', 'a']], 0, 1, 0, true⟩
      [CKey.char 'b', CKey.enter, CKey.up, CKey.endKey, CKey.delete]
      (by decide) (by decide)⟩

/-- C2: the claim fails on the code.  The content cursor column is a byte
offset moved in steps of 1, so after inserting the 2-byte character 'é' the
cursor sits inside its UTF-8 encoding and the next insertion panics
(String::insert on a non-boundary): the two-keystroke sequence below reaches
the panic, modelled as `none`. -/
theorem insert_after_multibyte_panics :
    contentRun ⟨[[]], 0, 0, 0, false⟩ [CKey.char 'é', CKey.char 'a'] = none := by
  decide

/-! ## from_text / to_text (`split_lines_preserve` and `Vec::join`, src/app.rs) -/

/-- Prepend a character to the first segment of a segment list (continuing
the current `split_inclusive` segment), starting a fresh segment if none. -/
def consHead (c : Char) : List (List Char) → List (List Char)
  | [] => [[c]]
  | seg :: segs => (c :: seg) :: segs

/-- Rust `str::split_inclusive('\n')`: the segments of a string, each keeping
its terminating newline; an empty input yields no segments. -/
def splitInclusiveNl : List Char → List (List Char)
  | [] => []
  | c :: rest =>
    if c = '\n' then [c] :: splitInclusiveNl rest
    else consHead c (splitInclusiveNl rest)

/-- The loop body of `split_lines_preserve`: drop a trailing newline from a
segment (`ends_with('\n')` followed by `pop`). -/
def stripNl (seg : List Char) : List Char :=
  if seg.getLast? = some '\n' then seg.dropLast else seg

/-- `split_lines_preserve` (src/app.rs): split preserving empty lines; a
genuinely empty input yields one empty line. -/
def split_lines_preserve (s : List Char) : List (List Char) :=
  let out := (splitInclusiveNl s).map stripNl
  if out.isEmpty then [[]] else out

/-- Rust `Vec::join("\n")`: the persisted representation of the buffer
(`self.lines.join("\n")` in `App::save_current`). -/
def joinNl : List (List Char) → List Char
  | [] => []
  | l :: ls => if ls.isEmpty then l else l ++ '\n' :: joinNl ls

theorem splitInclusiveNl_cons (c : Char) (rest : List Char) :
    splitInclusiveNl (c :: rest) =
      if c = '\n' then [c] :: splitInclusiveNl rest
      else consHead c (splitInclusiveNl rest) := rfl

theorem stripNl_concat (a : List Char) (x : Char) :
    stripNl (a ++ [x]) = if x = '\n' then a else a ++ [x] := by
  simp only [stripNl, List.getLast?_concat, Option.some.injEq, List.dropLast_concat]

theorem stripNl_cons (c : Char) (seg : List Char) (h : seg ≠ []) :
    stripNl (c :: seg) = c :: stripNl seg := by
  rcases List.eq_nil_or_concat seg with rfl | ⟨a, x, rfl⟩
  · exact absurd rfl h
  · rw [List.concat_eq_append]
    have h1 : c :: (a ++ [x]) = (c :: a) ++ [x] := by simp
    rw [h1, stripNl_concat, stripNl_concat]
    split <;> simp

theorem joinNl_cons_cons (c : Char) (x : List Char) (ls : List (List Char)) :
    joinNl ((c :: x) :: ls) = c :: joinNl (x :: ls) := by
  simp only [joinNl]
  split <;> simp

theorem splitInclusiveNl_ne_nil (c : Char) (rest : List Char) :
    splitInclusiveNl (c :: rest) ≠ [] := by
  rw [splitInclusiveNl_cons]
  split
  · simp
  · cases h : splitInclusiveNl rest <;> simp [consHead]

theorem splitInclusiveNl_mem_ne_nil : ∀ (s : List Char) (seg : List Char),
    seg ∈ splitInclusiveNl s → seg ≠ []
  | [], seg => by simp [splitInclusiveNl]
  | c :: rest, seg => by
    intro hmem
    rw [splitInclusiveNl_cons] at hmem
    split at hmem
    · rcases List.mem_cons.1 hmem with rfl | hmem
      · simp
      · exact splitInclusiveNl_mem_ne_nil rest seg hmem
    · cases h : splitInclusiveNl rest with
      | nil =>
        rw [h] at hmem
        simp [consHead] at hmem
        simp [hmem]
      | cons s0 ss =>
        rw [h] at hmem
        rcases List.mem_cons.1 (by simpa [consHead] using hmem) with rfl | hmem2
        · simp
        · exact splitInclusiveNl_mem_ne_nil rest seg
            (by rw [h]; exact List.mem_cons_of_mem _ hmem2)

theorem joinNl_strip_splitInclusive : ∀ (s : List Char),
    joinNl ((splitInclusiveNl s).map stripNl)
      = if s.getLast? = some '\n' then s.dropLast else s
  | [] => by simp [splitInclusiveNl, joinNl]
  | [c] => by
    by_cases hc : c = '\n' <;>
      simp [splitInclusiveNl, consHead, stripNl, joinNl, hc]
  | c :: r :: rs => by
    have ih := joinNl_strip_splitInclusive (r :: rs)
    have hne := splitInclusiveNl_ne_nil r rs
    have hlast : (c :: r :: rs).getLast? = (r :: rs).getLast? :=
      List.getLast?_cons_cons
    have hdrop : (c :: r :: rs).dropLast = c :: (r :: rs).dropLast := by
      simp [List.dropLast]
    by_cases hc : c = '\n'
    · subst hc
      have hsplit : splitInclusiveNl ('\n' :: r :: rs)
          = ['\n'] :: splitInclusiveNl (r :: rs) := by
        rw [splitInclusiveNl_cons, if_pos rfl]
      have hstrip : stripNl ['\n'] = [] := by decide
      have hjoin : joinNl ([] :: (splitInclusiveNl (r :: rs)).map stripNl)
          = '\n' :: joinNl ((splitInclusiveNl (r :: rs)).map stripNl) := by
        simp only [joinNl]
        rw [if_neg (by simpa using hne)]
        simp
      rw [hsplit, List.map_cons, hstrip, hjoin, ih, hlast, hdrop]
      by_cases hl : (r :: rs).getLast? = some '\n' <;> simp [hl]
    · cases h : splitInclusiveNl (r :: rs) with
      | nil => exact absurd h hne
      | cons seg segs =>
        have hsegne : seg ≠ [] :=
          splitInclusiveNl_mem_ne_nil (r :: rs) seg
            (by rw [h]; exact List.mem_cons_self _ _)
        have hsplit : splitInclusiveNl (c :: r :: rs) = (c :: seg) :: segs := by
          rw [splitInclusiveNl_cons, if_neg hc, h]
          rfl
        rw [h] at ih
        rw [hsplit, List.map_cons, stripNl_cons c seg hsegne, joinNl_cons_cons,
          ← List.map_cons, ih, hlast, hdrop]
        by_cases hl : (r :: rs).getLast? = some '\n' <;> simp [hl]

theorem joinNl_split_lines (s : List Char) :
    joinNl (split_lines_preserve s)
      = if s.getLast? = some '\n' then s.dropLast else s := by
  cases s with
  | nil => simp [split_lines_preserve, splitInclusiveNl, joinNl]
  | cons c rest =>
    have hne := splitInclusiveNl_ne_nil c rest
    have hout : split_lines_preserve (c :: rest)
        = (splitInclusiveNl (c :: rest)).map stripNl := by
      simp only [split_lines_preserve]
      rw [if_neg (by simpa using hne)]
    rw [hout, joinNl_strip_splitInclusive]

/-- C3: for strings without a trailing newline the from_text / to_text round
trip is the identity; a string ending in exactly one newline round-trips to
itself with that newline stripped; the empty string yields exactly one empty
line. -/
theorem from_text_to_text_roundtrip :
    (∀ s : List Char, s.getLast? ≠ some '\n' →
      joinNl (split_lines_preserve s) = s) ∧
    (∀ s t : List Char, s = t ++ ['\n'] → t.getLast? ≠ some '\n' →
      joinNl (split_lines_preserve s) = t) ∧
    split_lines_preserve [] = [[]] := by
  refine ⟨?_, ?_, by decide⟩
  · intro s hs
    rw [joinNl_split_lines, if_neg hs]
  · intro s t hst ht
    subst hst
    rw [joinNl_split_lines, if_pos (by simp [List.getLast?_concat]),
      List.dropLast_concat]

/-- C3 witness: the round trip evaluated on "a\nb" (no trailing newline) and
on "a\n" (exactly one trailing newline). -/
theorem from_text_to_text_roundtrip_witness :
    ((['a', '\n', 'b'] : List Char).getLast? ≠ some '\n' ∧
      joinNl (split_lines_preserve ['a', '\n', 'b']) = ['a', '\n', 'b']) ∧
    ((['a', '\n'] : List Char) = ['a'] ++ ['\n'] ∧
      (['a'] : List Char).getLast? ≠ some '\n' ∧
      joinNl (split_lines_preserve ['a', '\n']) = ['a']) :=
  ⟨⟨by decide, from_text_to_text_roundtrip.1 ['a', '\n', 'b'] (by decide)⟩,
    ⟨by decide, by decide,
      from_text_to_text_roundtrip.2.1 ['a', '\n'] ['a'] (by decide) (by decide)⟩⟩

/-! ## Note tree and sidebar flattener (src/fs/ops.rs) -/

/-- Filesystem paths (`PathBuf`), modelled as strings. -/
abbrev Path := List Char

mutual
inductive NoteNode where
  | dir (name : List Char) (path : Path) (children : NoteForest)
  | file (title : List Char) (path : Path)
inductive NoteForest where
  | nil
  | cons (hd : NoteNode) (tl : NoteForest)
end

/-- Whether a forest (a directory's child list) is empty; `tl.isNil` plays the
role of `i + 1 == children.len()` for the head of `tl`'s predecessor. -/
def NoteForest.isNil : NoteForest → Bool
  | .nil => true
  | .cons _ _ => false

/-- `FlatNode` (src/fs/ops.rs): one row of the rendered sidebar. -/
structure FlatNode where
  name : List Char
  depth : Nat
  path : Path
  is_dir : Bool
  expanded : Bool
  last_in_parent : Bool
  last_ancestors : List Bool
deriving DecidableEq, Repr

mutual
/-- `flatten_node` (src/fs/ops.rs), returning the rows it pushes in order. -/
def flatten_node (exp : List Path) : NoteNode → Nat → Bool → List Bool → List FlatNode
  | .dir name path children, depth, lastInParent, anc =>
    let isExp := decide (path ∈ exp)
    ⟨name, depth, path, true, isExp, lastInParent, anc⟩ ::
      (if isExp then flatten_forest exp children (depth + 1) (anc ++ [lastInParent])
       else [])
  | .file title path, depth, lastInParent, anc =>
    [⟨title, depth, path, false, false, lastInParent, anc⟩]
/-- The `for (i, child) in children.iter().enumerate()` loop of
`flatten_node`, with `is_last` decided by whether the tail is empty. -/
def flatten_forest (exp : List Path) : NoteForest → Nat → List Bool → List FlatNode
  | .nil, _, _ => []
  | .cons hd tl, depth, anc =>
    flatten_node exp hd depth tl.isNil anc ++ flatten_forest exp tl depth anc
end

/-- `flatten_tree_for_sidebar` (src/fs/ops.rs): the synthetic root is not
emitted; its children are flattened at depth 0 with a fresh ancestor list. -/
def flatten_tree_for_sidebar (root : NoteNode) (exp : List Path) : List FlatNode :=
  match root with
  | .dir _ _ children => flatten_forest exp children 0 []
  | .file _ _ => flatten_node exp root 0 true []

mutual
/-- The directory paths present in a tree. -/
def nodeDirPaths : NoteNode → List Path
  | .dir _ p children => p :: forestDirPaths children
  | .file _ _ => []
def forestDirPaths : NoteForest → List Path
  | .nil => []
  | .cons hd tl => nodeDirPaths hd ++ forestDirPaths tl
end

/-- The paths of the emitted rows carrying `is_dir && expanded`. -/
def expandedDirPaths (rows : List FlatNode) : List Path :=
  (rows.filter fun f => f.is_dir && f.expanded).map fun f => f.path

mutual
theorem flatten_node_anc (exp : List Path) :
    ∀ (n : NoteNode) (depth : Nat) (last : Bool) (anc : List Bool),
      anc.length = depth →
      ∀ f ∈ flatten_node exp n depth last anc, f.last_ancestors.length = f.depth
  | .dir name path children, depth, last, anc => by
    intro hanc f hf
    simp only [flatten_node] at hf
    rcases List.mem_cons.1 hf with rfl | hf
    · simpa using hanc
    · split at hf
      · exact flatten_forest_anc exp children (depth + 1) (anc ++ [last])
          (by simp [hanc]) f hf
      · simp at hf
  | .file t p, depth, last, anc => by
    intro hanc f hf
    simp only [flatten_node, List.mem_singleton] at hf
    subst hf
    simpa using hanc
theorem flatten_forest_anc (exp : List Path) :
    ∀ (ns : NoteForest) (depth : Nat) (anc : List Bool),
      anc.length = depth →
      ∀ f ∈ flatten_forest exp ns depth anc, f.last_ancestors.length = f.depth
  | .nil, depth, anc => by simp [flatten_forest]
  | .cons hd tl, depth, anc => by
    intro hanc f hf
    simp only [flatten_forest, List.mem_append] at hf
    rcases hf with hf | hf
    · exact flatten_node_anc exp hd depth tl.isNil anc hanc f hf
    · exact flatten_forest_anc exp tl depth anc hanc f hf
end

mutual
theorem flatten_node_expanded (exp : List Path) :
    ∀ (n : NoteNode) (depth : Nat) (last : Bool) (anc : List Bool),
      ∀ f ∈ flatten_node exp n depth last anc,
        f.is_dir = true → (f.expanded = true ↔ f.path ∈ exp)
  | .dir name path children, depth, last, anc => by
    intro f hf _
    simp only [flatten_node] at hf
    rcases List.mem_cons.1 hf with rfl | hf
    · simp
    · split at hf
      · exact flatten_node_expanded_forest exp children (depth + 1)
          (anc ++ [last]) f hf (by assumption)
      · simp at hf
  | .file t p, depth, last, anc => by
    intro f hf hdir
    simp only [flatten_node, List.mem_singleton] at hf
    subst hf
    simp at hdir
theorem flatten_node_expanded_forest (exp : List Path) :
    ∀ (ns : NoteForest) (depth : Nat) (anc : List Bool),
      ∀ f ∈ flatten_forest exp ns depth anc,
        f.is_dir = true → (f.expanded = true ↔ f.path ∈ exp)
  | .nil, depth, anc => by simp [flatten_forest]
  | .cons hd tl, depth, anc => by
    intro f hf hdir
    simp only [flatten_forest, List.mem_append] at hf
    rcases hf with hf | hf
    · exact flatten_node_expanded exp hd depth tl.isNil anc f hf hdir
    · exact flatten_node_expanded_forest exp tl depth anc f hf hdir
end

/-- C7 (amended): every row emitted by the flattener satisfies
last_ancestors.length = depth, and every emitted directory row's expanded bit
is set exactly when its path is in the ExpansionState.  (The original claim's
set equality with ExpansionState ∩ tree-paths fails for expanded directories
hidden under a collapsed ancestor, see the counterexample.) -/
theorem flatten_rows_wellformed (root : NoteNode) (exp : List Path) :
    (∀ f ∈ flatten_tree_for_sidebar root exp, f.last_ancestors.length = f.depth) ∧
    (∀ f ∈ flatten_tree_for_sidebar root exp, f.is_dir = true →
      (f.expanded = true ↔ f.path ∈ exp)) := by
  constructor
  · intro f hf
    cases root with
    | dir n p children =>
      exact flatten_forest_anc exp children 0 [] rfl f hf
    | file t p =>
      exact flatten_node_anc exp (.file t p) 0 true [] rfl f hf
  · intro f hf
    cases root with
    | dir n p children =>
      exact flatten_node_expanded_forest exp children 0 [] f hf
    | file t p =>
      exact flatten_node_expanded exp (.file t p) 0 true [] f hf

/-- The tree of the C7 counterexample: root "r" containing a collapsed
directory "/a" which contains the directory "/a/b". -/
def cexRoot : NoteNode :=
  .dir ['r'] ['r']
    (.cons (.dir ['a'] ['/', 'a']
      (.cons (.dir ['b'] ['/', 'a', '/', 'b'] .nil) .nil)) .nil)

/-- The ExpansionState of the C7 counterexample: only "/a/b" is expanded. -/
def cexExp : List Path := [['/', 'a', '/', 'b']]

/-- C7 counterexample: with directory "/a/b" in the ExpansionState but its
parent "/a" collapsed, "/a/b" is in ExpansionState ∩ tree-directory-paths yet
no emitted row carries is_dir && expanded, so the claimed set equality fails. -/
theorem flatten_expanded_set_mismatch :
    ¬ (∀ p : Path,
        p ∈ expandedDirPaths (flatten_tree_for_sidebar cexRoot cexExp)
          ↔ (p ∈ cexExp ∧ p ∈ nodeDirPaths cexRoot)) := fun h =>
  absurd ((h ['/', 'a', '/', 'b']).2 (by decide)) (by decide)

/-- C7 witness: the amended properties evaluated on the single row that the
counterexample tree flattens to. -/
theorem flatten_rows_wellformed_witness :
    (⟨['a'], 0, ['/', 'a'], true, false, true, []⟩ : FlatNode).last_ancestors.length
        = (⟨['a'], 0, ['/', 'a'], true, false, true, []⟩ : FlatNode).depth ∧
    ((⟨['a'], 0, ['/', 'a'], true, false, true, []⟩ : FlatNode).expanded = true
        ↔ (⟨['a'], 0, ['/', 'a'], true, false, true, []⟩ : FlatNode).path ∈ cexExp) :=
  ⟨(flatten_rows_wellformed cexRoot cexExp).1 _ (by decide),
    (flatten_rows_wellformed cexRoot cexExp).2 _ (by decide) (by decide)⟩

/-! ## The application state and key dispatch (src/app.rs)

External collaborators (directory enumeration for `build_notes_tree`, the
success of `File::create` / `fs::rename` / `fs::remove_file` beyond what a
path-to-content map expresses, and git) are supplied as a `World` of
per-event results; the filesystem contents are a path-to-content map carried
in the state. -/

inductive Focus where
  | sidebar | title | content | commits
deriving DecidableEq, Repr

inductive RightFocus where
  | title | content
deriving DecidableEq, Repr

/-- `impl From<RightFocus> for Focus` (src/app.rs). -/
def RightFocus.toFocus : RightFocus → Focus
  | .title => .title
  | .content => .content

inductive Modal where
  | confirmDelete (path : Path)
  | inputName (current : List Char) (target_dir : Path)
deriving DecidableEq, Repr

structure Modifiers where
  ctrl : Bool
  alt : Bool
  shift : Bool
deriving DecidableEq, Repr

def Modifiers.isEmpty (m : Modifiers) : Bool := !m.ctrl && !m.alt && !m.shift

/-- No modifier held. -/
def Modifiers.empty : Modifiers := ⟨false, false, false⟩

inductive KeyCode where
  | char (c : Char) | up | down | left | right | enter | tab | backspace
  | delete | home | endKey | esc
deriving DecidableEq, Repr

structure KeyEvent where
  code : KeyCode
  mods : Modifiers
deriving DecidableEq, Repr

/-- The status messages the app can surface (src/app.rs `format!` strings,
abstracted to their identity). -/
inductive StatusMsg where
  | noCommits | deleted | deleteFailed | newNoteIn (dir : Path) | fetched
deriving DecidableEq, Repr

structure GitSection where
  commits : List (List Char)
  selected : Nat
deriving DecidableEq, Repr

structure App where
  notes_dir : Path
  sidebar_items : List FlatNode
  expanded_dirs : List Path
  sidebar_selected : Option Nat
  title : List Char
  title_cursor : Nat
  lines : List (List Char)
  cursor_row : Nat
  cursor_col : Nat
  scroll_y : Nat
  opened_path : Option Path
  dirty : Bool
  focus : Focus
  last_right_focus : RightFocus
  git_section : GitSection
  status_message : Option StatusMsg
  new_note_dir : Option Path
  modal : Option Modal
  fs : Path → Option (List Char)

/-- Per-event results of the external collaborators. -/
structure World where
  tree_result : Option NoteNode
  write_ok : Bool
  rename_ok : Bool
  delete_ok : Bool
  fetched_commits : List (List Char)

/-- `read_note` (src/fs/ops.rs) on the path-to-content map: 'none' is a read
failure (the file is absent or unreadable). -/
def read_note (fs : Path → Option (List Char)) (p : Path) : Option (List Char) := fs p

/-- `write_note` (src/fs/ops.rs): create/overwrite `p` with `content`. -/
def write_note (w : World) (fs : Path → Option (List Char)) (p : Path)
    (content : List Char) : Option (Path → Option (List Char)) :=
  if w.write_ok then some fun q => if q = p then some content else fs q else none

/-- `rename_note` (src/fs/ops.rs): `fs::rename` moves `old` onto `newP`,
replacing any existing file at `newP`; a no-op success when `old = newP`;
failure when `old` is absent. -/
def rename_note (fs : Path → Option (List Char)) (old newP : Path) :
    Option (Path → Option (List Char)) :=
  if old = newP then some fs
  else
    match fs old with
    | none => none
    | some v => some fun q => if q = newP then some v else if q = old then none else fs q

/-- `PathBuf::join` for one component. -/
def joinPath (d : Path) (f : List Char) : Path :=
  if d.isEmpty then f else d ++ '/' :: f

/-- The final component of a path. -/
def lastComponent (p : Path) : List Char :=
  (p.reverse.takeWhile fun c => !decide (c = '/')).reverse

/-- `Path::parent`: drop the final component; `none` on the empty path. -/
def parentPath (p : Path) : Option Path :=
  if p.isEmpty then none
  else some (((p.reverse.dropWhile fun c => !decide (c = '/')).drop 1).reverse)

/-- Drop everything from the last dot on (the extension with its dot). -/
def dropAfterLastDot (l : List Char) : List Char :=
  (((l.reverse).dropWhile fun c => !decide (c = '.')).drop 1).reverse

/-- `Path::file_stem`: the file name before its final dot; a leading dot does
not start an extension. -/
def fileStem (p : Path) : List Char :=
  match lastComponent p with
  | [] => []
  | c :: rest => if ('.' : Char) ∈ rest then c :: dropAfterLastDot rest else c :: rest

/-- Rust `str::trim`. -/
def rustTrim (s : List Char) : List Char :=
  ((s.dropWhile Char.isWhitespace).reverse.dropWhile Char.isWhitespace).reverse

/-- `build_sidebar` (src/app.rs): build the tree (collaborator result) and
flatten it; a build failure is an empty row list (`unwrap_or_default`). -/
def buildSidebar (w : World) (expanded : List Path) : List FlatNode :=
  match w.tree_result with
  | none => []
  | some t => flatten_tree_for_sidebar t expanded

/-- `App::refresh_sidebar_preserve_selection` (src/app.rs). -/
def refreshSidebarPreserve (w : World) (a : App) (prefer_idx : Option Nat) : App :=
  let old_idx := match prefer_idx with
    | some i => some i
    | none => a.sidebar_selected
  let items := buildSidebar w a.expanded_dirs
  if items.isEmpty then
    { a with sidebar_items := items, sidebar_selected := none }
  else
    { a with sidebar_items := items,
             sidebar_selected := some (min (old_idx.getD 0) (items.length - 1)) }

/-- `App::refresh_sidebar_select_path` (src/app.rs). -/
def refreshSidebarSelectPath (w : World) (a : App) (p : Path) : App :=
  let a1 := refreshSidebarPreserve w a none
  match a1.sidebar_items.findIdx? fun n => !n.is_dir && decide (n.path = p) with
  | some idx => { a1 with sidebar_selected := some idx }
  | none => a1

/-- `App::open_file` (src/app.rs): a failed read is swallowed by
`unwrap_or_default()` and treated as empty content. -/
def open_file (a : App) (p : Path) : App :=
  let content := (read_note a.fs p).getD []
  let titleS := fileStem p
  let lines0 := split_lines_preserve content
  let lines1 := if lines0.isEmpty then lines0 ++ [[]] else lines0
  { a with title := titleS, title_cursor := utf8Len titleS, lines := lines1,
           cursor_row := 0, cursor_col := 0, scroll_y := 0,
           opened_path := some p, dirty := false,
           focus := a.last_right_focus.toFocus }

/-- `App::save_current` (src/app.rs).  `none` models the `?` on a failed
write aborting the event loop. -/
def save_current (w : World) (a : App) : Option App :=
  if (rustTrim a.title).isEmpty then some a
  else
    let target_dir := a.new_note_dir.getD a.notes_dir
    let new_path := joinPath target_dir (rustTrim a.title ++ ['.', 'm', 'd'])
    let content := joinNl a.lines
    let fs2? :=
      match a.opened_path with
      | some old =>
        if old ≠ new_path then
          (write_note w a.fs new_path content).map fun fs1 =>
            match (if w.rename_ok then rename_note fs1 old new_path else none) with
            | some fs2 => fs2
            | none => fs1
        else write_note w a.fs new_path content
      | none => write_note w a.fs new_path content
    fs2?.map fun fs2 =>
      refreshSidebarSelectPath w
        { a with fs := fs2, opened_path := some new_path, dirty := false,
                 new_note_dir := none }
        new_path

/-- `App::sidebar_toggle_dir` (src/app.rs): the expanded set toggled by path. -/
def sidebar_toggle_dir (w : World) (a : App) (idx : Nat) : App :=
  if h : idx < a.sidebar_items.length then
    let item := a.sidebar_items.get ⟨idx, h⟩
    if !item.is_dir then a
    else
      let expanded2 :=
        if item.path ∈ a.expanded_dirs then
          a.expanded_dirs.filter fun q => !decide (q = item.path)
        else item.path :: a.expanded_dirs
      refreshSidebarPreserve w { a with expanded_dirs := expanded2 } (some idx)
  else a

/-- `App::sidebar_enter_action` (src/app.rs). -/
def sidebar_enter_action (w : World) (a : App) (idx : Nat) : App :=
  if h : idx < a.sidebar_items.length then
    let item := a.sidebar_items.get ⟨idx, h⟩
    if item.is_dir then sidebar_toggle_dir w a idx
    else open_file a item.path
  else a

/-- `App::handle_sidebar_key` (src/app.rs). -/
def handleSidebarKey (w : World) (a : App) (k : KeyEvent) : App :=
  let len := a.sidebar_items.length
  let selected := a.sidebar_selected.getD 0
  match k.code with
  | .up => if 0 < len then { a with sidebar_selected := some (selected - 1) } else a
  | .down =>
    if 0 < len then { a with sidebar_selected := some (min (selected + 1) (len - 1)) }
    else a
  | .enter => sidebar_enter_action w a selected
  | .right => sidebar_enter_action w a selected
  | .char c =>
    if c = ' ' then sidebar_toggle_dir w a selected
    else if c = 'd' then
      if h : selected < a.sidebar_items.length then
        let item := a.sidebar_items.get ⟨selected, h⟩
        if !item.is_dir then { a with modal := some (.confirmDelete item.path) }
        else a
      else a
    else a
  | _ => a

/-- The body of `App::handle_title_key` after its initial
`last_right_focus = Title` assignment: byte-offset string editing on the
title, with the path-separator / dot filter on insertion. -/
def titleKeyCore (a : App) (k : KeyEvent) : Option App :=
  match k.code with
  | .left => some (if 0 < a.title_cursor then { a with title_cursor := a.title_cursor - 1 } else a)
  | .right =>
    some (if a.title_cursor < utf8Len a.title then { a with title_cursor := a.title_cursor + 1 } else a)
  | .home => some { a with title_cursor := 0 }
  | .endKey => some { a with title_cursor := utf8Len a.title }
  | .backspace =>
    if 0 < a.title_cursor then
      (strRemove a.title (a.title_cursor - 1)).map fun p =>
        { a with title := p.2, title_cursor := a.title_cursor - 1, dirty := true }
    else some a
  | .delete =>
    if a.title_cursor < utf8Len a.title then
      (strRemove a.title a.title_cursor).map fun p => { a with title := p.2, dirty := true }
    else some a
  | .char c =>
    if !k.mods.ctrl then
      if c ≠ '/' ∧ c ≠ '\\' ∧ c ≠ '.' ∧ c ≠ '\n' ∧ c ≠ '\r' then
        (strInsert a.title a.title_cursor c).map fun t =>
          { a with title := t, title_cursor := a.title_cursor + 1, dirty := true }
      else some a
    else some a
  | _ => some a

/-- `App::handle_title_key` (src/app.rs): record the right focus, then edit. -/
def handleTitleKey (a0 : App) (k : KeyEvent) : Option App :=
  titleKeyCore { a0 with last_right_focus := RightFocus.title } k

/-- The content keys `handle_content_key` acts on (a CONTROL-modified
character falls through to the no-op arm). -/
def contentKeyOf (k : KeyEvent) : Option CKey :=
  match k.code with
  | .left => some .left
  | .right => some .right
  | .up => some .up
  | .down => some .down
  | .home => some .home
  | .endKey => some .endKey
  | .backspace => some .backspace
  | .delete => some .delete
  | .enter => some .enter
  | .char c => if k.mods.ctrl then none else some (.char c)
  | _ => none

/-- The body of `App::handle_content_key` after its initial
`last_right_focus = Content` assignment. -/
def contentKeyCore (a : App) (k : KeyEvent) : Option App :=
  match contentKeyOf k with
  | none => some { a with scroll_y := ensureCursorVisible a.cursor_row a.scroll_y }
  | some ck =>
    (contentStep ⟨a.lines, a.cursor_row, a.cursor_col, a.scroll_y, a.dirty⟩ ck).map
      fun t => { a with lines := t.lines, cursor_row := t.row, cursor_col := t.col,
                        scroll_y := t.scroll, dirty := t.dirty }

/-- `App::handle_content_key` (src/app.rs): record the right focus, then edit. -/
def handleContentKey (a0 : App) (k : KeyEvent) : Option App :=
  contentKeyCore { a0 with last_right_focus := RightFocus.content } k

/-- `GitSection::select_prev` (src/git.rs). -/
def gitSelectPrev (a : App) : App :=
  if !a.git_section.commits.isEmpty then
    { a with git_section := { a.git_section with selected := a.git_section.selected - 1 } }
  else a

/-- `GitSection::select_next` (src/git.rs). -/
def gitSelectNext (a : App) : App :=
  if !a.git_section.commits.isEmpty then
    { a with git_section :=
        { a.git_section with
            selected := min (a.git_section.selected + 1) (a.git_section.commits.length - 1) } }
  else a

/-- `App::handle_commits_key` (src/app.rs). -/
def handleCommitsKey (w : World) (a : App) (k : KeyEvent) : App :=
  match k.code with
  | .up => gitSelectPrev a
  | .down => gitSelectNext a
  | .home =>
    if !a.git_section.commits.isEmpty then
      { a with git_section := { a.git_section with selected := 0 } }
    else a
  | .endKey =>
    if !a.git_section.commits.isEmpty then
      { a with git_section :=
          { a.git_section with selected := a.git_section.commits.length - 1 } }
    else a
  | .left => { a with focus := .sidebar }
  | .right => { a with focus := a.last_right_focus.toFocus }
  | .char c =>
    if c = 'r' ∧ k.mods.isEmpty then
      { a with git_section := ⟨w.fetched_commits, 0⟩, status_message := some .fetched }
    else a
  | _ => a

/-- `App::handle_modal_key` (src/app.rs). -/
def handleModalKey (w : World) (a : App) (k : KeyEvent) : App :=
  match a.modal with
  | none => a
  | some (.confirmDelete p) =>
    match k.code with
    | .char c =>
      if c = 'y' ∨ c = 'Y' then
        if w.delete_ok && (a.fs p).isSome then
          let a1 := { a with fs := fun q => if q = p then none else a.fs q,
                             status_message := some .deleted }
          let a2 := refreshSidebarPreserve w a1 none
          { a2 with modal := none }
        else { a with status_message := some .deleteFailed, modal := none }
      else if c = 'n' ∨ c = 'N' then { a with modal := none }
      else a
    | .esc => { a with modal := none }
    | _ => a
  | some (.inputName current target) =>
    match k.code with
    | .char c =>
      if !k.mods.ctrl then { a with modal := some (.inputName (current ++ [c]) target) }
      else a
    | .backspace => { a with modal := some (.inputName current.dropLast target) }
    | .enter =>
      if !(rustTrim current).isEmpty then
        { a with title := rustTrim current,
                 title_cursor := utf8Len (rustTrim current),
                 lines := [[]], cursor_row := 0, cursor_col := 0, scroll_y := 0,
                 new_note_dir := some target, opened_path := none, dirty := true,
                 focus := .title, last_right_focus := .title,
                 status_message := some (.newNoteIn target), modal := none }
      else { a with modal := none }
    | .esc => { a with modal := none }
    | _ => a

/-- The 'h' / 'l' focus moves of `handle_key`, which in the source set the
focus without returning, so the same key is then dispatched to the newly
focused surface. -/
def hlFocusStep (a : App) (k : KeyEvent) : App :=
  if k.mods.isEmpty ∧ k.code = .char 'h' then { a with focus := .sidebar }
  else if k.mods.isEmpty ∧ k.code = .char 'l' then
    { a with focus := a.last_right_focus.toFocus }
  else a

/-- The Tab focus cycle of `handle_key`. -/
def tabStep (a1 : App) : App :=
  match a1.focus with
  | .sidebar => { a1 with last_right_focus := .title, focus := .title }
  | .title => { a1 with last_right_focus := .content, focus := .content }
  | .content => { a1 with focus := .commits }
  | .commits => { a1 with focus := .sidebar }

/-- The arrow-key pre-routing block of `handle_key`, active when focus is not
Content: the arms that return early yield `some`, fall-through yields `none`. -/
def preRoute (w : World) (a1 : App) (k : KeyEvent) : Option App :=
  if a1.focus = .content then none
  else
    match k.code with
    | .up =>
      match a1.focus with
      | .sidebar => some (handleSidebarKey w a1 k)
      | .commits => some (gitSelectPrev a1)
      | _ => none
    | .down =>
      match a1.focus with
      | .sidebar => some (handleSidebarKey w a1 k)
      | .commits => some (gitSelectNext a1)
      | _ => none
    | .left =>
      if a1.focus = .commits ∨ a1.focus = .title then
        some { a1 with focus := .sidebar }
      else none
    | .right =>
      if a1.focus = .sidebar then
        some (sidebar_enter_action w a1 (a1.sidebar_selected.getD 0))
      else if a1.focus = .commits then
        some { a1 with focus := a1.last_right_focus.toFocus }
      else none
    | _ => none

/-- The tail of `handle_key` after the early-returning branches: Tab, the
arrow pre-routing block, and the per-focus dispatch. -/
def dispatchAfterHL (w : World) (a1 : App) (k : KeyEvent) : Option (App × Bool) :=
  if k.code = .tab then some (tabStep a1, false)
  else
    match preRoute w a1 k with
    | some a2 => some (a2, false)
    | none =>
      match a1.focus with
      | .sidebar => some (handleSidebarKey w a1 k, false)
      | .title => (handleTitleKey a1 k).map fun b => (b, false)
      | .content => (handleContentKey a1 k).map fun b => (b, false)
      | .commits => some (handleCommitsKey w a1 k, false)

/-- `App::handle_key` (src/app.rs): the full dispatcher.  The returned flag
is the quit signal; `none` models a panic or a propagated error ending the
event loop. -/
def handle_key (w : World) (a : App) (k : KeyEvent) : Option (App × Bool) :=
  if a.modal.isSome then some (handleModalKey w a k, false)
  else if k.mods.isEmpty ∧ k.code = .char '1' then some ({ a with focus := .sidebar }, false)
  else if k.mods.isEmpty ∧ k.code = .char '2' then some ({ a with focus := .title }, false)
  else if k.mods.isEmpty ∧ k.code = .char '3' then some ({ a with focus := .content }, false)
  else if k.mods.isEmpty ∧ k.code = .char '4' then some ({ a with focus := .commits }, false)
  else if k.code = .char 'q' ∧ k.mods.isEmpty then some (a, true)
  else if k.code = .char 's' ∧ k.mods.ctrl then (save_current w a).map fun a1 => (a1, false)
  else if k.code = .char 'n' ∧ k.mods.isEmpty then
    let target :=
      if a.focus = .sidebar then
        match a.sidebar_selected with
        | some sel =>
          if h : sel < a.sidebar_items.length then
            let it := a.sidebar_items.get ⟨sel, h⟩
            if it.is_dir then it.path
            else (parentPath it.path).getD a.notes_dir
          else a.notes_dir
        | none => a.notes_dir
      else a.notes_dir
    some ({ a with modal := some (.inputName [] target) }, false)
  else dispatchAfterHL w (hlFocusStep a k) k

/-- Run a key-event sequence through the event loop; stop on quit, `none` on
a panic or propagated error. -/
def appRun (w : World) : App → List KeyEvent → Option App
  | a, [] => some a
  | a, k :: ks =>
    match handle_key w a k with
    | none => none
    | some (a1, true) => some a1
    | some (a1, false) => appRun w a1 ks

/-- `App::new` (src/app.rs): initial state. -/
def initApp (w : World) (notes_dir : Path) (fs0 : Path → Option (List Char))
    (commits0 : List (List Char)) : App :=
  let expanded := [notes_dir]
  let items := buildSidebar w expanded
  { notes_dir := notes_dir,
    sidebar_items := items,
    expanded_dirs := expanded,
    sidebar_selected := if items.isEmpty then none else some 0,
    title := [], title_cursor := 0, lines := [[]],
    cursor_row := 0, cursor_col := 0, scroll_y := 0,
    opened_path := none, dirty := false,
    focus := .sidebar, last_right_focus := .title,
    git_section := ⟨commits0, 0⟩,
    status_message := if commits0.isEmpty then some .noCommits else none,
    new_note_dir := none, modal := none, fs := fs0 }

/-! ## Concrete fixtures -/

/-- A world where every collaborator call succeeds and the notes tree is the
bare root directory `n` with no children. -/
def wOk : World := ⟨some (.dir ['n'] ['n'] .nil), true, true, true, []⟩

/-- The initial state over an empty notes directory `n` and an empty
filesystem map. -/
def app0 : App := initApp wOk ['n'] (fun _ => none) []

/-- The C1 filesystem: `n/old.md` holds the previously saved content "S". -/
def fsC1 : Path → Option (List Char) :=
  fun p => if p = ['n', '/', 'o', 'l', 'd', '.', 'm', 'd'] then some ['S'] else none

/-- The C1 state: note `n/old.md` is open, its title edited to "new" and its
body edited to "E". -/
def appC1 : App :=
  { initApp wOk ['n'] fsC1 [] with
    title := ['n', 'e', 'w'],
    opened_path := some ['n', '/', 'o', 'l', 'd', '.', 'm', 'd'],
    lines := [['E']],
    dirty := true }

/-- The C10 state: a whitespace-only title. -/
def appC10 : App := { app0 with title := [' '] }

/-- The C8 state: note `n/a.md` open with unsaved edits. -/
def appC8 : App :=
  { app0 with
    title := ['a'],
    opened_path := some ['n', '/', 'a', '.', 'm', 'd'],
    lines := [['x']],
    dirty := true }

/-- A path whose read fails (absent from the map). -/
def pMissing : Path := ['n', '/', 'm', '.', 'm', 'd']

/-- The right-focus consistency of the spec, as a Boolean. -/
def focusInvB (a : App) : Bool :=
  (!decide (a.focus = Focus.title) || decide (a.last_right_focus = RightFocus.title)) &&
  (!decide (a.focus = Focus.content) || decide (a.last_right_focus = RightFocus.content))

/-- The title filter of the spec, as a Boolean: no path separator, no dot. -/
def titleOkB (t : List Char) : Bool :=
  t.all fun c => !(decide (c = '/') || decide (c = '\\') || decide (c = '.'))

/-! ## C1, C10, C8 and the C5/C6 counterexamples -/

/-- C1: code-bug evidence.  Saving the open note `n/old.md` under the edited
title "new" first writes `n/new.md` with the edited body "E", then renames
`n/old.md` onto `n/new.md`; `fs::rename` replaces the destination, so on
rename success `n/new.md` ends up with the stale content "S" and the edit is
lost, contradicting the claimed (and spec'd, section 7) post-state in which
new.md holds the edited content. -/
theorem save_rename_clobbers_new_file :
    (save_current wOk appC1).map
        (fun b => (b.fs ['n', '/', 'n', 'e', 'w', '.', 'm', 'd'],
          b.fs ['n', '/', 'o', 'l', 'd', '.', 'm', 'd']))
      = some (some ['S'], none) ∧
    joinNl appC1.lines = ['E'] ∧ (['S'] : List Char) ≠ ['E'] := by
  decide

/-- C10: with a title that is empty after trimming, save returns success
immediately and the whole state - every field, including the filesystem map -
is returned unchanged. -/
theorem save_empty_title_is_noop (w : World) (a : App)
    (h : (rustTrim a.title).isEmpty = true) : save_current w a = some a := by
  simp [save_current, h]

/-- C10 witness: the no-op save evaluated on a whitespace-only title. -/
theorem save_empty_title_is_noop_witness :
    (rustTrim appC10.title).isEmpty = true ∧ save_current wOk appC10 = some appC10 :=
  ⟨by decide, save_empty_title_is_noop wOk appC10 (by decide)⟩

/-- C8 counterexample: opening a note whose read fails does not abort: the
model is mutated (title, buffer, opened_path, dirty are all reset for the new
path) and no status message is surfaced, refuting the claimed last-good-state
behaviour. -/
theorem open_failure_mutates_model :
    (open_file appC8 pMissing).opened_path ≠ appC8.opened_path ∧
    (open_file appC8 pMissing).dirty = false ∧ appC8.dirty = true ∧
    (open_file appC8 pMissing).title ≠ appC8.title ∧
    (open_file appC8 pMissing).status_message = appC8.status_message := by
  decide

/-- C8 (amended): on a failed read, open_file proceeds as if the file were
empty: title from the path's file stem, one empty line, cursor and scroll
reset, opened_path set to the new path, dirty cleared; no status message and
no other field changes. -/
theorem open_file_read_failure_opens_empty (a : App) (p : Path) (h : a.fs p = none) :
    open_file a p =
      { a with title := fileStem p, title_cursor := utf8Len (fileStem p),
               lines := [[]], cursor_row := 0, cursor_col := 0, scroll_y := 0,
               opened_path := some p, dirty := false,
               focus := a.last_right_focus.toFocus } := by
  unfold open_file read_note
  rw [h]
  rfl

/-- C8 witness: the failed open evaluated at a concrete missing path. -/
theorem open_file_read_failure_opens_empty_witness :
    appC8.fs pMissing = none ∧
    open_file appC8 pMissing =
      { appC8 with title := fileStem pMissing,
                   title_cursor := utf8Len (fileStem pMissing),
                   lines := [[]], cursor_row := 0, cursor_col := 0, scroll_y := 0,
                   opened_path := some pMissing, dirty := false,
                   focus := appC8.last_right_focus.toFocus } :=
  ⟨rfl, open_file_read_failure_opens_empty appC8 pMissing rfl⟩

/-- C5 counterexample: from the initial state, Tab Tab reaches Content (with
RightFocus = Content), and the quick-select key '2' then sets focus to Title
without updating RightFocus, reaching a state that violates the claimed
invariant. -/
theorem quick_select_leaves_stale_right_focus :
    (appRun wOk app0
        [⟨.tab, .empty⟩, ⟨.tab, .empty⟩, ⟨.char '2', .empty⟩]).map focusInvB
      = some false := by
  decide

/-- C6 counterexample: the InputName modal accepts '.' unfiltered and its
confirm adopts the trimmed buffer as the title, so pressing n, '.', Enter
from the initial state reaches a state whose title is ".", violating the
claimed title invariant. -/
theorem modal_confirm_adopts_dotted_title :
    (appRun wOk app0
        [⟨.char 'n', .empty⟩, ⟨.char '.', .empty⟩, ⟨.enter, .empty⟩]).map
        (fun b => titleOkB b.title)
      = some false := by
  decide

/-! ## C6: the title filter under Title-field editing -/

/-- The title invariant of the spec: no path separator, no literal dot. -/
def TitleOk (t : List Char) : Prop :=
  ∀ c ∈ t, c ≠ '/' ∧ c ≠ '\\' ∧ c ≠ '.'

instance (t : List Char) : Decidable (TitleOk t) := by
  unfold TitleOk
  infer_instance

theorem titleOk_strRemove {t : List Char} {i : Nat} {p : Char × List Char}
    (ht : TitleOk t) (h : strRemove t i = some p) : TitleOk p.2 := by
  obtain ⟨a, b, hab, hl, _⟩ := strRemove_spec t i p.1 p.2 (by simpa using h)
  intro c hc
  apply ht
  rw [hab]
  rw [hl] at hc
  rcases List.mem_append.1 hc with hc | hc
  · exact List.mem_append.2 (Or.inl hc)
  · exact List.mem_append.2 (Or.inr (List.mem_cons_of_mem _ hc))

theorem titleOk_strInsert {t : List Char} {i : Nat} {c : Char} {t2 : List Char}
    (ht : TitleOk t) (hc : c ≠ '/' ∧ c ≠ '\\' ∧ c ≠ '.')
    (h : strInsert t i c = some t2) : TitleOk t2 := by
  obtain ⟨a, b, hab, hl, _⟩ := strInsert_spec t i c t2 h
  intro x hx
  rw [hl] at hx
  rcases List.mem_append.1 hx with hx | hx
  · exact ht x (by rw [hab]; exact List.mem_append.2 (Or.inl hx))
  · rcases List.mem_cons.1 hx with rfl | hx
    · exact hc
    · exact ht x (by rw [hab]; exact List.mem_append.2 (Or.inr hx))

theorem titleKeyCore_titleOk (a : App) (k : KeyEvent) (b : App)
    (ht : TitleOk a.title) (h : titleKeyCore a k = some b) : TitleOk b.title := by
  obtain ⟨code, mods⟩ := k
  cases code <;> simp only [titleKeyCore] at h
  case left =>
    simp only [Option.some.injEq] at h
    have hb : b.title = a.title := by
      rw [← h]
      split <;> rfl
    rw [hb]
    exact ht
  case right =>
    simp only [Option.some.injEq] at h
    have hb : b.title = a.title := by
      rw [← h]
      split <;> rfl
    rw [hb]
    exact ht
  case home =>
    simp only [Option.some.injEq] at h
    rw [← h]
    exact ht
  case endKey =>
    simp only [Option.some.injEq] at h
    rw [← h]
    exact ht
  case backspace =>
    split at h
    · rw [Option.map_eq_some'] at h
      obtain ⟨p, hp, hb⟩ := h
      rw [← hb]
      exact titleOk_strRemove ht hp
    · simp only [Option.some.injEq] at h
      rw [← h]
      exact ht
  case delete =>
    split at h
    · rw [Option.map_eq_some'] at h
      obtain ⟨p, hp, hb⟩ := h
      rw [← hb]
      exact titleOk_strRemove ht hp
    · simp only [Option.some.injEq] at h
      rw [← h]
      exact ht
  case char c =>
    split at h
    · split at h
      · rename_i hgood
        rw [Option.map_eq_some'] at h
        obtain ⟨t2, hins, hb⟩ := h
        rw [← hb]
        exact titleOk_strInsert ht ⟨hgood.1, hgood.2.1, hgood.2.2.1⟩ hins
      · simp only [Option.some.injEq] at h
        rw [← h]
        exact ht
    · simp only [Option.some.injEq] at h
      rw [← h]
      exact ht
  all_goals
    simp only [Option.some.injEq] at h
    rw [← h]
    exact ht

/-- C6 (amended): the Title-editing input path rejects every keystroke that
would put a path separator or a dot into the title, so Title-field editing
preserves the title invariant; the InputName modal path, however, adopts its
buffer without this filter and can set a title containing a dot or separator
(see the counterexample). -/
theorem title_editing_preserves_title_filter (a : App) (k : KeyEvent) (b : App)
    (ht : TitleOk a.title) (h : handleTitleKey a k = some b) : TitleOk b.title :=
  titleKeyCore_titleOk { a with last_right_focus := RightFocus.title } k b ht h

/-- The state after typing 'b' into the empty title of the initial state. -/
def appW6 : App := { app0 with title := ['b'], title_cursor := 1, dirty := true }

/-- C6 witness: one allowed Title keystroke evaluated concretely. -/
theorem title_editing_preserves_title_filter_witness :
    TitleOk app0.title ∧
    handleTitleKey app0 ⟨.char 'b', .empty⟩ = some appW6 ∧
    TitleOk appW6.title :=
  ⟨by decide, by rfl,
    title_editing_preserves_title_filter app0 ⟨.char 'b', .empty⟩ appW6
      (by decide) (by rfl)⟩

/-! ## C5: right-focus consistency -/

/-- The right-focus consistency invariant of the spec. -/
def FocusInv (a : App) : Prop :=
  (a.focus = Focus.title → a.last_right_focus = RightFocus.title) ∧
  (a.focus = Focus.content → a.last_right_focus = RightFocus.content)

instance (a : App) : Decidable (FocusInv a) := by
  unfold FocusInv
  infer_instance

theorem focusInv_of_eq {a b : App} (hinv : FocusInv a)
    (hf : b.focus = a.focus) (hl : b.last_right_focus = a.last_right_focus) :
    FocusInv b := by
  obtain ⟨h1, h2⟩ := hinv
  constructor <;> intro hx
  · rw [hl]
    exact h1 (by rw [← hf]; exact hx)
  · rw [hl]
    exact h2 (by rw [← hf]; exact hx)

theorem focusInv_not_tc {a : App}
    (h : a.focus = Focus.sidebar ∨ a.focus = Focus.commits) : FocusInv a := by
  constructor <;> intro hx <;> rcases h with h | h <;> rw [h] at hx <;> simp at hx

theorem focusInv_title_title {a : App} (hf : a.focus = Focus.title)
    (hl : a.last_right_focus = RightFocus.title) : FocusInv a := by
  constructor <;> intro hx
  · exact hl
  · rw [hf] at hx
    simp at hx

theorem focusInv_content_content {a : App} (hf : a.focus = Focus.content)
    (hl : a.last_right_focus = RightFocus.content) : FocusInv a := by
  constructor <;> intro hx
  · rw [hf] at hx
    simp at hx
  · exact hl

theorem focusInv_goto_last {a b : App}
    (hf : b.focus = a.last_right_focus.toFocus)
    (hl : b.last_right_focus = a.last_right_focus) : FocusInv b := by
  cases h : a.last_right_focus
  · exact focusInv_title_title (by rw [hf, h]; rfl) (by rw [hl, h])
  · exact focusInv_content_content (by rw [hf, h]; rfl) (by rw [hl, h])

theorem refreshSidebarPreserve_proj (w : World) (a : App) (i : Option Nat) :
    (refreshSidebarPreserve w a i).focus = a.focus ∧
    (refreshSidebarPreserve w a i).last_right_focus = a.last_right_focus := by
  unfold refreshSidebarPreserve
  dsimp only
  split <;> exact ⟨rfl, rfl⟩

theorem refreshSidebarSelectPath_proj (w : World) (a : App) (p : Path) :
    (refreshSidebarSelectPath w a p).focus = a.focus ∧
    (refreshSidebarSelectPath w a p).last_right_focus = a.last_right_focus := by
  obtain ⟨h1, h2⟩ := refreshSidebarPreserve_proj w a (none : Option Nat)
  unfold refreshSidebarSelectPath
  dsimp only
  split
  · exact ⟨h1, h2⟩
  · exact ⟨h1, h2⟩

theorem open_file_proj (a : App) (p : Path) :
    (open_file a p).focus = a.last_right_focus.toFocus ∧
    (open_file a p).last_right_focus = a.last_right_focus := by
  unfold open_file
  exact ⟨rfl, rfl⟩

theorem focusInv_open_file (a : App) (p : Path) : FocusInv (open_file a p) :=
  focusInv_goto_last (open_file_proj a p).1 (open_file_proj a p).2

theorem sidebar_toggle_proj (w : World) (a : App) (i : Nat) :
    (sidebar_toggle_dir w a i).focus = a.focus ∧
    (sidebar_toggle_dir w a i).last_right_focus = a.last_right_focus := by
  unfold sidebar_toggle_dir
  dsimp only
  repeat' split
  all_goals
    first
      | exact ⟨rfl, rfl⟩
      | exact ⟨(refreshSidebarPreserve_proj w _ _).1,
          (refreshSidebarPreserve_proj w _ _).2⟩

theorem focusInv_sidebar_enter (w : World) (a : App) (i : Nat)
    (hinv : FocusInv a) : FocusInv (sidebar_enter_action w a i) := by
  unfold sidebar_enter_action
  dsimp only
  repeat' split
  all_goals
    first
      | exact hinv
      | exact focusInv_of_eq hinv (sidebar_toggle_proj w a i).1 (sidebar_toggle_proj w a i).2
      | exact focusInv_open_file _ _

theorem focusInv_handleSidebarKey (w : World) (a : App) (k : KeyEvent)
    (hinv : FocusInv a) : FocusInv (handleSidebarKey w a k) := by
  unfold handleSidebarKey
  dsimp only
  cases k.code
  all_goals repeat' split
  all_goals
    first
      | exact hinv
      | exact focusInv_of_eq hinv rfl rfl
      | exact focusInv_of_eq hinv (sidebar_toggle_proj w a _).1 (sidebar_toggle_proj w a _).2
      | exact focusInv_sidebar_enter w a _ hinv

theorem focusInv_gitSelectPrev (a : App) (hinv : FocusInv a) :
    FocusInv (gitSelectPrev a) := by
  unfold gitSelectPrev
  split
  · exact focusInv_of_eq hinv rfl rfl
  · exact hinv

theorem focusInv_gitSelectNext (a : App) (hinv : FocusInv a) :
    FocusInv (gitSelectNext a) := by
  unfold gitSelectNext
  split
  · exact focusInv_of_eq hinv rfl rfl
  · exact hinv

theorem focusInv_handleCommitsKey (w : World) (a : App) (k : KeyEvent)
    (hinv : FocusInv a) : FocusInv (handleCommitsKey w a k) := by
  unfold handleCommitsKey
  cases k.code
  all_goals repeat' split
  all_goals
    first
      | exact hinv
      | exact focusInv_of_eq hinv rfl rfl
      | exact focusInv_not_tc (Or.inl rfl)
      | exact focusInv_goto_last rfl rfl
      | exact focusInv_gitSelectPrev a hinv
      | exact focusInv_gitSelectNext a hinv

theorem focusInv_handleModalKey (w : World) (a : App) (k : KeyEvent)
    (hinv : FocusInv a) : FocusInv (handleModalKey w a k) := by
  unfold handleModalKey
  split
  all_goals try cases k.code
  all_goals try dsimp only
  all_goals repeat' split
  all_goals
    first
      | exact hinv
      | exact focusInv_of_eq hinv rfl rfl
      | exact focusInv_title_title rfl rfl
      | exact focusInv_of_eq hinv (refreshSidebarPreserve_proj w _ _).1
          (refreshSidebarPreserve_proj w _ _).2

theorem save_current_proj (w : World) (a b : App)
    (h : save_current w a = some b) :
    b.focus = a.focus ∧ b.last_right_focus = a.last_right_focus := by
  unfold save_current at h
  split at h
  · simp only [Option.some.injEq] at h
    rw [← h]
    exact ⟨rfl, rfl⟩
  · dsimp only at h
    rw [Option.map_eq_some'] at h
    obtain ⟨fs2, _, hb⟩ := h
    rw [← hb]
    exact ⟨(refreshSidebarSelectPath_proj w _ _).1,
      (refreshSidebarSelectPath_proj w _ _).2⟩

theorem titleKeyCore_proj (a : App) (k : KeyEvent) (b : App)
    (h : titleKeyCore a k = some b) :
    b.focus = a.focus ∧ b.last_right_focus = a.last_right_focus := by
  obtain ⟨code, mods⟩ := k
  cases code <;> simp only [titleKeyCore] at h
  case left =>
    simp only [Option.some.injEq] at h
    rw [← h]
    constructor <;> split <;> rfl
  case right =>
    simp only [Option.some.injEq] at h
    rw [← h]
    constructor <;> split <;> rfl
  case backspace =>
    split at h
    · rw [Option.map_eq_some'] at h
      obtain ⟨p, _, hb⟩ := h
      rw [← hb]
      exact ⟨rfl, rfl⟩
    · simp only [Option.some.injEq] at h
      rw [← h]
      exact ⟨rfl, rfl⟩
  case delete =>
    split at h
    · rw [Option.map_eq_some'] at h
      obtain ⟨p, _, hb⟩ := h
      rw [← hb]
      exact ⟨rfl, rfl⟩
    · simp only [Option.some.injEq] at h
      rw [← h]
      exact ⟨rfl, rfl⟩
  case char c =>
    split at h
    · split at h
      · rw [Option.map_eq_some'] at h
        obtain ⟨t2, _, hb⟩ := h
        rw [← hb]
        exact ⟨rfl, rfl⟩
      · simp only [Option.some.injEq] at h
        rw [← h]
        exact ⟨rfl, rfl⟩
    · simp only [Option.some.injEq] at h
      rw [← h]
      exact ⟨rfl, rfl⟩
  all_goals
    simp only [Option.some.injEq] at h
    rw [← h]
    exact ⟨rfl, rfl⟩

theorem contentKeyCore_proj (a : App) (k : KeyEvent) (b : App)
    (h : contentKeyCore a k = some b) :
    b.focus = a.focus ∧ b.last_right_focus = a.last_right_focus := by
  unfold contentKeyCore at h
  split at h
  · simp only [Option.some.injEq] at h
    rw [← h]
    exact ⟨rfl, rfl⟩
  · rw [Option.map_eq_some'] at h
    obtain ⟨t, _, hb⟩ := h
    rw [← hb]
    exact ⟨rfl, rfl⟩

theorem focusInv_hlFocusStep (a : App) (k : KeyEvent) (hinv : FocusInv a) :
    FocusInv (hlFocusStep a k) := by
  unfold hlFocusStep
  repeat' split
  all_goals
    first
      | exact hinv
      | exact focusInv_not_tc (Or.inl rfl)
      | exact focusInv_goto_last rfl rfl

theorem focusInv_tabStep (a : App) (hinv : FocusInv a) : FocusInv (tabStep a) := by
  unfold tabStep
  repeat' split
  all_goals
    first
      | exact focusInv_title_title rfl rfl
      | exact focusInv_content_content rfl rfl
      | exact focusInv_not_tc (Or.inl rfl)
      | exact focusInv_not_tc (Or.inr rfl)

theorem focusInv_preRoute (w : World) (a1 a2 : App) (k : KeyEvent)
    (hinv : FocusInv a1) (h : preRoute w a1 k = some a2) : FocusInv a2 := by
  unfold preRoute at h
  split at h
  · exact Option.noConfusion h
  · repeat' split at h
    all_goals
      first
        | exact Option.noConfusion h
        | (simp only [Option.some.injEq] at h
           rw [← h]
           first
             | exact focusInv_handleSidebarKey w _ k hinv
             | exact focusInv_gitSelectPrev _ hinv
             | exact focusInv_gitSelectNext _ hinv
             | exact focusInv_not_tc (Or.inl rfl)
             | exact focusInv_sidebar_enter w _ _ hinv
             | exact focusInv_goto_last rfl rfl)

theorem focusInv_dispatchAfterHL (w : World) (a1 b : App) (k : KeyEvent) (q : Bool)
    (hinv : FocusInv a1) (h : dispatchAfterHL w a1 k = some (b, q)) : FocusInv b := by
  unfold dispatchAfterHL at h
  split at h
  · simp only [Option.some.injEq, Prod.mk.injEq] at h
    obtain ⟨h1, -⟩ := h
    rw [← h1]
    exact focusInv_tabStep a1 hinv
  · split at h
    · rename_i a2 hpre
      simp only [Option.some.injEq, Prod.mk.injEq] at h
      obtain ⟨h1, -⟩ := h
      rw [← h1]
      exact focusInv_preRoute w a1 a2 k hinv hpre
    · split at h
      case _ heq =>
        simp only [Option.some.injEq, Prod.mk.injEq] at h
        obtain ⟨h1, -⟩ := h
        rw [← h1]
        exact focusInv_handleSidebarKey w a1 k hinv
      case _ heq =>
        rw [Option.map_eq_some'] at h
        obtain ⟨x, hx, hpair⟩ := h
        simp only [Prod.mk.injEq] at hpair
        obtain ⟨rfl, -⟩ := hpair
        obtain ⟨hf, hl⟩ := titleKeyCore_proj _ k _ hx
        exact focusInv_title_title (by rw [hf]; exact heq) hl
      case _ heq =>
        rw [Option.map_eq_some'] at h
        obtain ⟨x, hx, hpair⟩ := h
        simp only [Prod.mk.injEq] at hpair
        obtain ⟨rfl, -⟩ := hpair
        obtain ⟨hf, hl⟩ := contentKeyCore_proj _ k _ hx
        exact focusInv_content_content (by rw [hf]; exact heq) hl
      case _ heq =>
        simp only [Option.some.injEq, Prod.mk.injEq] at h
        obtain ⟨h1, -⟩ := h
        rw [← h1]
        exact focusInv_handleCommitsKey w a1 k hinv

/-- C5 (amended): every key event except the numeric quick-selects '2' and
'3' preserves the right-focus consistency invariant (focus Title implies
RightFocus Title, focus Content implies RightFocus Content); pressing '2' or
'3' sets the focus without updating RightFocus, which is what the
counterexample exploits. -/
theorem handle_key_preserves_right_focus (w : World) (a b : App) (k : KeyEvent)
    (q : Bool) (hinv : FocusInv a)
    (h2 : ¬ (k.mods.isEmpty ∧ k.code = KeyCode.char '2'))
    (h3 : ¬ (k.mods.isEmpty ∧ k.code = KeyCode.char '3'))
    (h : handle_key w a k = some (b, q)) : FocusInv b := by
  unfold handle_key at h
  by_cases hm : a.modal.isSome = true
  · rw [if_pos hm] at h
    simp only [Option.some.injEq, Prod.mk.injEq] at h
    obtain ⟨h1, -⟩ := h
    rw [← h1]
    exact focusInv_handleModalKey w a k hinv
  · rw [if_neg hm] at h
    by_cases hc1 : k.mods.isEmpty ∧ k.code = KeyCode.char '1'
    · rw [if_pos hc1] at h
      simp only [Option.some.injEq, Prod.mk.injEq] at h
      obtain ⟨h1, -⟩ := h
      rw [← h1]
      exact focusInv_not_tc (Or.inl rfl)
    · rw [if_neg hc1, if_neg h2, if_neg h3] at h
      by_cases hc4 : k.mods.isEmpty ∧ k.code = KeyCode.char '4'
      · rw [if_pos hc4] at h
        simp only [Option.some.injEq, Prod.mk.injEq] at h
        obtain ⟨h1, -⟩ := h
        rw [← h1]
        exact focusInv_not_tc (Or.inr rfl)
      · rw [if_neg hc4] at h
        by_cases hq : k.code = KeyCode.char 'q' ∧ k.mods.isEmpty
        · rw [if_pos hq] at h
          simp only [Option.some.injEq, Prod.mk.injEq] at h
          obtain ⟨h1, -⟩ := h
          rw [← h1]
          exact hinv
        · rw [if_neg hq] at h
          by_cases hsv : k.code = KeyCode.char 's' ∧ k.mods.ctrl
          · rw [if_pos hsv] at h
            rw [Option.map_eq_some'] at h
            obtain ⟨a1, hs, hpair⟩ := h
            simp only [Prod.mk.injEq] at hpair
            obtain ⟨rfl, -⟩ := hpair
            exact focusInv_of_eq hinv (save_current_proj w a _ hs).1
              (save_current_proj w a _ hs).2
          · rw [if_neg hsv] at h
            by_cases hn : k.code = KeyCode.char 'n' ∧ k.mods.isEmpty
            · rw [if_pos hn] at h
              simp only [Option.some.injEq, Prod.mk.injEq] at h
              obtain ⟨h1, -⟩ := h
              rw [← h1]
              exact focusInv_of_eq hinv rfl rfl
            · rw [if_neg hn] at h
              exact focusInv_dispatchAfterHL w _ b k q
                (focusInv_hlFocusStep a k hinv) h

/-- The state after a Tab from the initial state: focus and RightFocus are
both Title. -/
def appW5 : App := { app0 with last_right_focus := RightFocus.title, focus := Focus.title }

/-- C5 witness: the preservation theorem applied to a Tab keystroke from the
initial state. -/
theorem handle_key_preserves_right_focus_witness :
    FocusInv app0 ∧
    ¬ ((⟨.tab, .empty⟩ : KeyEvent).mods.isEmpty ∧
        (⟨.tab, .empty⟩ : KeyEvent).code = KeyCode.char '2') ∧
    ¬ ((⟨.tab, .empty⟩ : KeyEvent).mods.isEmpty ∧
        (⟨.tab, .empty⟩ : KeyEvent).code = KeyCode.char '3') ∧
    handle_key wOk app0 ⟨.tab, .empty⟩ = some (appW5, false) ∧
    FocusInv appW5 :=
  ⟨by decide, by decide, by decide, by rfl,
    handle_key_preserves_right_focus wOk app0 appW5 ⟨.tab, .empty⟩ false
      (by decide) (by decide) (by decide) (by rfl)⟩

end LazyNotes
